import Mathlib

/-!
# Verification of the `lru_cache` repository

A shallow embedding of the LRU cache (`src/cache/lru.rs`) and its file
persistence layer (`src/storage/file.rs`), with proofs of the behavioural
properties stated in the specification.

The Rust `HashMap<K, V>` is modelled as an association list whose keys are
pairwise distinct in every reachable state; the map is only ever observed
through lookup, key-membership, size, insert and remove, so the list order
of the model never leaks into results.  The `Vec<K>` recency order is a
`List K`.  File contents are `List Char`; `str::lines` (including its
`\r\n` handling) and `str::split_once(';')` are modelled explicitly.
-/

namespace LruCache

/-- Keys of an association list, in list order. -/
def keysOf {K V : Type} (l : List (K × V)) : List K :=
  l.map Prod.fst

/-- Model of `HashMap::get`: value of the first entry with the given key. -/
def lookupA {K V : Type} [DecidableEq K] : List (K × V) → K → Option V
  | [], _ => none
  | p :: rest, k => if p.1 = k then some p.2 else lookupA rest k

/-- Model of `HashMap::contains_key`. -/
def containsA {K V : Type} [DecidableEq K] : List (K × V) → K → Bool
  | [], _ => false
  | p :: rest, k => if p.1 = k then true else containsA rest k

/-- Model of `HashMap::insert`: replace the value of an existing key,
otherwise add the entry (at the end, recording insertion order). -/
def insertA {K V : Type} [DecidableEq K] : List (K × V) → K → V → List (K × V)
  | [], k, v => [(k, v)]
  | p :: rest, k, v => if p.1 = k then (k, v) :: rest else p :: insertA rest k v

/-- Model of `HashMap::remove`: drop the first entry with the given key. -/
def removeA {K V : Type} [DecidableEq K] : List (K × V) → K → List (K × V)
  | [], _ => []
  | p :: rest, k => if p.1 = k then rest else p :: removeA rest k

/-- The cache of `src/cache/lru.rs`: capacity, key-value store, recency
order (least recently used first). -/
structure Cache (K V : Type) where
  capacity : Nat
  storage : List (K × V)
  order : List K

namespace Cache

variable {K V : Type} [DecidableEq K]

/-- `Cache::new`. -/
def new (capacity : Nat) : Cache K V :=
  ⟨capacity, [], []⟩

/-- `Cache::update_order`: if the key occurs in `order`, remove its first
occurrence and push it to the back. -/
def update_order (c : Cache K V) (key : K) : Cache K V :=
  if key ∈ c.order then
    { c with order := c.order.erase key ++ [key] }
  else c

/-- `Cache::get`: on a hit, refresh the recency order and return the value;
returns the (possibly updated) cache alongside the result. -/
def get (c : Cache K V) (key : K) : Option V × Cache K V :=
  if containsA c.storage key then
    let c2 := c.update_order key
    (lookupA c2.storage key, c2)
  else (none, c)

/-- `Cache::put`: replace-and-refresh for an existing key; otherwise evict
the head of the order (if the store is at capacity and the order is
nonempty) and insert the new entry at the most-recently-used end. -/
def put (c : Cache K V) (key : K) (value : V) : Cache K V :=
  if containsA c.storage key then
    let c2 : Cache K V := { c with storage := insertA c.storage key value }
    c2.update_order key
  else
    let c2 : Cache K V :=
      if c.storage.length ≥ c.capacity then
        match c.order.head? with
        | some lru => { c with storage := removeA c.storage lru, order := c.order.tail }
        | none => c
      else c
    { c2 with storage := insertA c2.storage key value, order := c2.order ++ [key] }

/-- A sequence of `put` calls, applied first to last. -/
def putList (c : Cache K V) (kvs : List (K × V)) : Cache K V :=
  kvs.foldl (fun acc kv => acc.put kv.1 kv.2) c

/-- The entry sequence `save_to_file` passes to `FileStorage::save`:
the entries in recency order, oldest first. -/
def snapshot (c : Cache K V) : List (K × V) :=
  c.order.filterMap (fun k => (lookupA c.storage k).map (fun v => (k, v)))

end Cache

/-- States reachable from `Cache::new cap` by `get` and `put` calls. -/
inductive Reachable {K V : Type} [DecidableEq K] (cap : Nat) : Cache K V → Prop
  | new : Reachable cap (Cache.new cap)
  | get : ∀ c k, Reachable cap c → Reachable cap (Cache.get c k).2
  | put : ∀ c k v, Reachable cap c → Reachable cap (Cache.put c k v)

/-- The internal invariant of a cache state: the recency order has no
duplicates and lists exactly the keys of the store, the store's keys are
pairwise distinct, and the store holds at most `max capacity 1` entries. -/
structure Inv {K V : Type} [DecidableEq K] (c : Cache K V) : Prop where
  order_nodup : c.order.Nodup
  mem_iff : ∀ k, k ∈ c.order ↔ containsA c.storage k = true
  keys_nodup : (keysOf c.storage).Nodup
  size_le : c.storage.length ≤ max c.capacity 1

/-! ## Persistence layer (`src/storage/file.rs`) -/

/-- Value of a decimal digit character. -/
def digitVal (c : Char) : Option Nat :=
  if 48 ≤ c.toNat ∧ c.toNat ≤ 57 then some (c.toNat - 48) else none

/-- Accumulating decimal parse of a digit string; fails on any non-digit. -/
def parseNatDigits : List Char → Nat → Option Nat
  | [], acc => some acc
  | c :: rest, acc =>
    match digitVal c with
    | some d => parseNatDigits rest (acc * 10 + d)
    | none => none

/-- Model of Rust's `str::parse::<usize>` (an optional leading `+`, then at
least one digit; overflow is not modelled). -/
def parseNatStr (cs : List Char) : Option Nat :=
  match cs with
  | [] => none
  | c :: rest =>
    if c = '+' then
      match rest with
      | [] => none
      | _ => parseNatDigits rest 0
    else parseNatDigits cs 0

/-- Decimal rendering of a natural number, modelling `Display` for `usize`. -/
def natDigits (n : Nat) : List Char :=
  if h : n < 10 then [Char.ofNat (48 + n)]
  else natDigits (n / 10) ++ [Char.ofNat (48 + n % 10)]
decreasing_by exact Nat.div_lt_self (by omega) (by omega)

/-- Split a character list at every newline; a final segment is always
present (possibly empty). -/
def splitOnNl : List Char → List (List Char)
  | [] => [[]]
  | c :: rest =>
    if c = '\n' then [] :: splitOnNl rest
    else
      match splitOnNl rest with
      | [] => [[c]]
      | l :: ls => (c :: l) :: ls

/-- Strip one trailing carriage return, as `str::lines` does on
newline-terminated segments. -/
def rstripCR (l : List Char) : List Char :=
  if l.getLast? = some '\r' then l.dropLast else l

/-- Model of `str::lines`: split at `'\n'`, strip a trailing `'\r'` from
each newline-terminated segment, and drop a final empty segment. -/
def linesOf (cs : List Char) : List (List Char) :=
  let segs := splitOnNl cs
  let body := segs.dropLast.map rstripCR
  match segs.getLast? with
  | some [] => body
  | some l => body ++ [l]
  | none => body

/-- Model of `str::split_once(';')`: split at the first semicolon. -/
def splitOnceSemi : List Char → Option (List Char × List Char)
  | [] => none
  | c :: rest =>
    if c = ';' then some ([], rest)
    else (splitOnceSemi rest).map (fun p => (c :: p.1, p.2))

/-- `FileStorage::save`: the file content built by the source's loop — the
capacity line, then one `key;value` line appended per entry. -/
def saveContent {K V : Type} (renderK : K → List Char) (renderV : V → List Char)
    (capacity : Nat) (data : List (K × V)) : List Char :=
  data.foldl
    (fun content kv => content ++ (renderK kv.1 ++ ';' :: (renderV kv.2 ++ ['\n'])))
    (natDigits capacity ++ ['\n'])

/-- One iteration of `FileStorage::load`'s entry loop: split the line at the
first `';'` and parse both fields; any failure yields `none`. -/
def parseEntry {K V : Type} (parseK : List Char → Option K) (parseV : List Char → Option V)
    (line : List Char) : Option (K × V) :=
  match splitOnceSemi line with
  | some (ks, vs) =>
    match parseK ks, parseV vs with
    | some k, some v => some (k, v)
    | _, _ => none
  | none => none

/-- One iteration of `FileStorage::load`'s entry loop: parse the line and
push the entry on success, keep the accumulator unchanged on failure. -/
def loadStep {K V : Type} (parseK : List Char → Option K) (parseV : List Char → Option V)
    (acc : List (K × V)) (line : List Char) : List (K × V) :=
  match parseEntry parseK parseV line with
  | some kv => acc ++ [kv]
  | none => acc

/-- `FileStorage::load`: first line parsed as the capacity (defaulting to 0),
every further line parsed by `parseEntry`, failures dropped. -/
def loadContent {K V : Type} (parseK : List Char → Option K) (parseV : List Char → Option V)
    (cs : List Char) : Nat × List (K × V) :=
  let ls := linesOf cs
  let capacity := ((ls.head?).bind parseNatStr).getD 0
  let data := (ls.drop 1).foldl (loadStep parseK parseV) ([] : List (K × V))
  (capacity, data)

/-- `Cache::save_to_file`: saves the capacity and the entries in recency
order, oldest first. -/
def save_to_file {K V : Type} [DecidableEq K]
    (renderK : K → List Char) (renderV : V → List Char) (c : Cache K V) : List Char :=
  saveContent renderK renderV c.capacity c.snapshot

/-- `Cache::load_from_file`: load the file, ignore the stored capacity, and
replay the entries through `put` into a fresh cache of the caller-supplied
capacity. -/
def load_from_file {K V : Type} [DecidableEq K]
    (parseK : List Char → Option K) (parseV : List Char → Option V)
    (cs : List Char) (capacity : Nat) : Cache K V :=
  let data := (loadContent parseK parseV cs).2
  Cache.putList (Cache.new capacity) data

/-! ## Association-list lemmas -/

theorem keysOf_nil {K V : Type} : keysOf ([] : List (K × V)) = [] := rfl

theorem keysOf_cons {K V : Type} (p : K × V) (l : List (K × V)) :
    keysOf (p :: l) = p.1 :: keysOf l := rfl

theorem keysOf_append {K V : Type} (l l' : List (K × V)) :
    keysOf (l ++ l') = keysOf l ++ keysOf l' := by
  simp [keysOf]

section AssocLemmas

variable {K V : Type} [DecidableEq K]

theorem containsA_iff (l : List (K × V)) (k : K) :
    containsA l k = true ↔ k ∈ keysOf l := by
  induction l with
  | nil => simp [containsA, keysOf]
  | cons p rest ih =>
    by_cases h : p.1 = k
    · simp [containsA, keysOf, h]
    · simp only [containsA, keysOf_cons, if_neg h, List.mem_cons, ih]
      constructor
      · exact fun hm => Or.inr hm
      · rintro (hk | hm)
        · exact absurd hk.symm h
        · exact hm

theorem containsA_false_iff (l : List (K × V)) (k : K) :
    containsA l k = false ↔ k ∉ keysOf l := by
  rw [← containsA_iff]
  cases containsA l k <;> simp

theorem lookupA_isSome (l : List (K × V)) (k : K) :
    (lookupA l k).isSome = containsA l k := by
  induction l with
  | nil => rfl
  | cons p rest ih =>
    by_cases h : p.1 = k <;> simp [lookupA, containsA, h, ih]

theorem insertA_of_not_contains (l : List (K × V)) (k : K) (v : V)
    (h : containsA l k = false) : insertA l k v = l ++ [(k, v)] := by
  induction l with
  | nil => rfl
  | cons p rest ih =>
    simp only [containsA] at h
    by_cases hp : p.1 = k
    · simp [hp] at h
    · simp only [if_neg hp] at h
      simp [insertA, hp, ih h]

theorem keysOf_insertA_of_contains (l : List (K × V)) (k : K) (v : V)
    (h : containsA l k = true) : keysOf (insertA l k v) = keysOf l := by
  induction l with
  | nil => simp [containsA] at h
  | cons p rest ih =>
    by_cases hp : p.1 = k
    · simp [insertA, keysOf, hp]
    · simp only [containsA, if_neg hp] at h
      simp [insertA, keysOf_cons, hp, ih h]

theorem length_insertA_of_contains (l : List (K × V)) (k : K) (v : V)
    (h : containsA l k = true) : (insertA l k v).length = l.length := by
  have := congrArg List.length (keysOf_insertA_of_contains l k v h)
  simpa [keysOf] using this

theorem lookupA_insertA_self (l : List (K × V)) (k : K) (v : V) :
    lookupA (insertA l k v) k = some v := by
  induction l with
  | nil => simp [insertA, lookupA]
  | cons p rest ih =>
    by_cases hp : p.1 = k
    · simp [insertA, lookupA, hp]
    · simp [insertA, lookupA, hp, ih]

theorem lookupA_insertA_ne (l : List (K × V)) (k k' : K) (v : V)
    (h : k' ≠ k) : lookupA (insertA l k v) k' = lookupA l k' := by
  have h' : ¬ (k = k') := fun hh => h hh.symm
  induction l with
  | nil => simp [insertA, lookupA, h']
  | cons p rest ih =>
    by_cases hp : p.1 = k
    · have hp' : ¬ (p.1 = k') := by rw [hp]; exact h'
      simp [insertA, lookupA, hp, h', hp']
    · by_cases hp' : p.1 = k' <;> simp [insertA, lookupA, hp, hp', h, h', ih]

theorem keysOf_removeA (l : List (K × V)) (k : K) :
    keysOf (removeA l k) = (keysOf l).erase k := by
  induction l with
  | nil => rfl
  | cons p rest ih =>
    by_cases hp : p.1 = k
    · simp [removeA, keysOf_cons, hp, List.erase_cons_head]
    · rw [keysOf_cons, List.erase_cons_tail]
      · simp [removeA, keysOf_cons, hp, ih]
      · simp [hp]

theorem length_removeA_of_contains (l : List (K × V)) (k : K)
    (h : containsA l k = true) : (removeA l k).length + 1 = l.length := by
  have hk : k ∈ List.map Prod.fst l := by
    simpa [keysOf] using (containsA_iff l k).1 h
  have hlen := congrArg List.length (keysOf_removeA l k)
  simp only [keysOf, List.length_map] at hlen
  rw [hlen, List.length_erase_add_one hk, List.length_map]

theorem lookupA_removeA_ne (l : List (K × V)) (j k : K) (h : k ≠ j) :
    lookupA (removeA l j) k = lookupA l k := by
  have hjk : ¬ (j = k) := fun hh => h hh.symm
  induction l with
  | nil => rfl
  | cons p rest ih =>
    by_cases hp : p.1 = j
    · have hp' : ¬ (p.1 = k) := by rw [hp]; exact hjk
      simp [removeA, lookupA, hp, hp', hjk]
    · by_cases hp' : p.1 = k <;> simp [removeA, lookupA, hp, hp', h, ih]

theorem containsA_removeA_of_not (l : List (K × V)) (j k : K)
    (h : containsA l k = false) : containsA (removeA l j) k = false := by
  rw [containsA_false_iff] at h ⊢
  rw [keysOf_removeA]
  exact fun hm => h (List.mem_of_mem_erase hm)

theorem removeA_cons_head (p : K × V) (l : List (K × V)) :
    removeA (p :: l) p.1 = l := by
  simp [removeA]

theorem lookupA_eq_some_of_mem (l : List (K × V)) (k : K) (v : V)
    (hnd : (keysOf l).Nodup) (hm : (k, v) ∈ l) : lookupA l k = some v := by
  induction l with
  | nil => simp at hm
  | cons p rest ih =>
    rw [keysOf_cons, List.nodup_cons] at hnd
    rcases List.mem_cons.1 hm with hh | hh
    · subst hh
      simp [lookupA]
    · have hp : p.1 ≠ k := by
        intro he
        exact hnd.1 (he ▸ (List.mem_map.2 ⟨(k, v), hh, rfl⟩))
      simp [lookupA, hp, ih hnd.2 hh]

end AssocLemmas

/-! ## Shape lemmas for the cache operations -/

section CacheLemmas

variable {K V : Type} [DecidableEq K]

theorem update_order_of_mem (c : Cache K V) (k : K) (h : k ∈ c.order) :
    c.update_order k = ⟨c.capacity, c.storage, c.order.erase k ++ [k]⟩ := by
  simp [Cache.update_order, h]

theorem update_order_of_not_mem (c : Cache K V) (k : K) (h : k ∉ c.order) :
    c.update_order k = c := by
  simp [Cache.update_order, h]

theorem update_order_storage (c : Cache K V) (k : K) :
    (c.update_order k).storage = c.storage := by
  unfold Cache.update_order
  split <;> rfl

theorem update_order_capacity (c : Cache K V) (k : K) :
    (c.update_order k).capacity = c.capacity := by
  unfold Cache.update_order
  split <;> rfl

theorem get_of_contains (c : Cache K V) (k : K) (h : containsA c.storage k = true) :
    c.get k = (lookupA c.storage k, c.update_order k) := by
  simp only [Cache.get, h, if_true]
  rw [update_order_storage]

theorem get_of_not_contains (c : Cache K V) (k : K) (h : containsA c.storage k = false) :
    c.get k = (none, c) := by
  simp [Cache.get, h]

theorem get_storage (c : Cache K V) (k : K) : ((c.get k).2).storage = c.storage := by
  cases hc : containsA c.storage k with
  | true => rw [get_of_contains c k hc, update_order_storage]
  | false => rw [get_of_not_contains c k hc]

theorem get_capacity (c : Cache K V) (k : K) : ((c.get k).2).capacity = c.capacity := by
  cases hc : containsA c.storage k with
  | true => rw [get_of_contains c k hc, update_order_capacity]
  | false => rw [get_of_not_contains c k hc]

theorem put_of_contains (c : Cache K V) (k : K) (v : V)
    (h : containsA c.storage k = true) :
    c.put k v = Cache.update_order ⟨c.capacity, insertA c.storage k v, c.order⟩ k := by
  simp [Cache.put, h]

theorem put_of_fresh_small (c : Cache K V) (k : K) (v : V)
    (h1 : containsA c.storage k = false) (h2 : c.storage.length < c.capacity) :
    c.put k v = ⟨c.capacity, c.storage ++ [(k, v)], c.order ++ [k]⟩ := by
  simp only [Cache.put, h1, Bool.false_eq_true, if_false, ge_iff_le,
    Nat.not_le.2 h2, if_false]
  rw [insertA_of_not_contains _ _ _ h1]

theorem put_of_fresh_empty_order (c : Cache K V) (k : K) (v : V)
    (h1 : containsA c.storage k = false) (h2 : c.storage.length ≥ c.capacity)
    (h3 : c.order = []) :
    c.put k v = ⟨c.capacity, c.storage ++ [(k, v)], [k]⟩ := by
  simp only [Cache.put, h1, Bool.false_eq_true, if_false, ge_iff_le, h2, if_true, h3,
    List.head?_nil]
  rw [insertA_of_not_contains _ _ _ h1]
  rfl

theorem put_of_fresh_evict (c : Cache K V) (k : K) (v : V) (k0 : K) (rest : List K)
    (h1 : containsA c.storage k = false) (h2 : c.storage.length ≥ c.capacity)
    (h3 : c.order = k0 :: rest) :
    c.put k v = ⟨c.capacity, removeA c.storage k0 ++ [(k, v)], rest ++ [k]⟩ := by
  simp only [Cache.put, h1, Bool.false_eq_true, if_false, ge_iff_le, h2, if_true, h3,
    List.head?_cons, List.tail_cons]
  rw [insertA_of_not_contains _ _ _ (containsA_removeA_of_not _ _ _ h1)]

theorem put_capacity (c : Cache K V) (k : K) (v : V) :
    (c.put k v).capacity = c.capacity := by
  cases hc : containsA c.storage k with
  | true => rw [put_of_contains c k v hc, update_order_capacity]
  | false =>
    by_cases h2 : c.storage.length ≥ c.capacity
    · cases ho : c.order with
      | nil => rw [put_of_fresh_empty_order c k v hc h2 ho]
      | cons k0 rest => rw [put_of_fresh_evict c k v k0 rest hc h2 ho]
    · rw [put_of_fresh_small c k v hc (Nat.lt_of_not_ge h2)]

end CacheLemmas

/-! ## The invariant and its preservation -/

section InvLemmas

variable {K V : Type} [DecidableEq K]

theorem inv_new (cap : Nat) : Inv (Cache.new (K := K) (V := V) cap) := by
  refine ⟨List.nodup_nil, ?_, List.nodup_nil, ?_⟩
  · intro k
    simp [Cache.new, containsA]
  · simp [Cache.new]

theorem inv_update_order (c : Cache K V) (k : K) (h : Inv c) :
    Inv (c.update_order k) := by
  by_cases hm : k ∈ c.order
  · rw [update_order_of_mem c k hm]
    refine ⟨?_, ?_, h.keys_nodup, h.size_le⟩
    · rw [List.nodup_append]
      refine ⟨h.order_nodup.erase k, List.nodup_singleton k, fun a ha hb => ?_⟩
      rw [List.mem_singleton.1 hb] at ha
      exact h.order_nodup.not_mem_erase ha
    · intro k'
      rw [← h.mem_iff k']
      constructor
      · intro hk'
        rcases List.mem_append.1 hk' with hk' | hk'
        · exact (h.order_nodup.mem_erase_iff.1 hk').2
        · exact List.mem_singleton.1 hk' ▸ hm
      · intro hk'
        by_cases he : k' = k
        · exact List.mem_append.2 (Or.inr (List.mem_singleton.2 he))
        · exact List.mem_append.2 (Or.inl (h.order_nodup.mem_erase_iff.2 ⟨he, hk'⟩))
  · rw [update_order_of_not_mem c k hm]
    exact h

theorem inv_get (c : Cache K V) (k : K) (h : Inv c) : Inv ((c.get k).2) := by
  cases hc : containsA c.storage k with
  | true =>
    rw [get_of_contains c k hc]
    exact inv_update_order c k h
  | false =>
    rw [get_of_not_contains c k hc]
    exact h

theorem inv_put (c : Cache K V) (k : K) (v : V) (h : Inv c) : Inv (c.put k v) := by
  cases hc : containsA c.storage k with
  | true =>
    rw [put_of_contains c k v hc]
    have hkeys : keysOf (insertA c.storage k v) = keysOf c.storage :=
      keysOf_insertA_of_contains c.storage k v hc
    have hinner : Inv (⟨c.capacity, insertA c.storage k v, c.order⟩ : Cache K V) := by
      refine ⟨h.order_nodup, ?_, ?_, ?_⟩
      · intro k'
        show k' ∈ c.order ↔ _
        rw [h.mem_iff k', containsA_iff, containsA_iff, hkeys]
      · show (keysOf (insertA c.storage k v)).Nodup
        rw [hkeys]
        exact h.keys_nodup
      · show (insertA c.storage k v).length ≤ max c.capacity 1
        rw [length_insertA_of_contains c.storage k v hc]
        exact h.size_le
    exact inv_update_order _ k hinner
  | false =>
    have hknm : k ∉ c.order := by
      rw [h.mem_iff k, hc]
      simp
    have hknk : k ∉ keysOf c.storage := (containsA_false_iff _ _).1 hc
    by_cases h2 : c.storage.length ≥ c.capacity
    · cases ho : c.order with
      | nil =>
        -- with an empty order the store is empty: no key is a member
        have hsnil : c.storage = [] := by
          cases hs : c.storage with
          | nil => rfl
          | cons p ps =>
            exfalso
            have : p.1 ∈ c.order := by
              rw [h.mem_iff p.1, containsA_iff, hs, keysOf_cons]
              exact List.mem_cons_self _ _
            rw [ho] at this
            simp at this
        rw [put_of_fresh_empty_order c k v hc h2 ho]
        refine ⟨List.nodup_singleton k, ?_, ?_, ?_⟩
        · intro k'
          rw [hsnil]
          constructor
          · intro hk'
            rw [List.mem_singleton.1 hk']
            simp [containsA]
          · intro hk'
            rw [containsA_iff] at hk'
            simp [keysOf] at hk'
            simp [hk']
        · rw [hsnil]
          simp [keysOf]
        · rw [hsnil]
          simp
      | cons k0 rest =>
        rw [put_of_fresh_evict c k v k0 rest hc h2 ho]
        have hk0 : containsA c.storage k0 = true := by
          rw [← h.mem_iff k0, ho]
          exact List.mem_cons_self _ _
        have hnd0 : c.order.Nodup := h.order_nodup
        rw [ho, List.nodup_cons] at hnd0
        have hkrest : k ∉ rest := fun hr => hknm (ho ▸ List.mem_cons_of_mem _ hr)
        have hkeysrm : keysOf (removeA c.storage k0) = (keysOf c.storage).erase k0 :=
          keysOf_removeA c.storage k0
        refine ⟨?_, ?_, ?_, ?_⟩
        · rw [List.nodup_append]
          refine ⟨hnd0.2, List.nodup_singleton k, fun a ha hb => ?_⟩
          rw [List.mem_singleton.1 hb] at ha
          exact hkrest ha
        · intro k'
          rw [containsA_iff, keysOf_append, hkeysrm]
          constructor
          · intro hk'
            rcases List.mem_append.1 hk' with hk' | hk'
            · refine List.mem_append.2 (Or.inl ?_)
              rw [h.keys_nodup.mem_erase_iff]
              have hmem : k' ∈ c.order := ho ▸ List.mem_cons_of_mem _ hk'
              have hne : k' ≠ k0 := fun he => hnd0.1 (he ▸ hk')
              rw [h.mem_iff, containsA_iff] at hmem
              exact ⟨hne, hmem⟩
            · exact List.mem_append.2 (Or.inr (by simpa [keysOf] using hk'))
          · intro hk'
            rcases List.mem_append.1 hk' with hk' | hk'
            · rw [h.keys_nodup.mem_erase_iff] at hk'
              have hmem : k' ∈ c.order := by
                rw [h.mem_iff, containsA_iff]
                exact hk'.2
              rw [ho] at hmem
              rcases List.mem_cons.1 hmem with he | hm
              · exact absurd he hk'.1
              · exact List.mem_append.2 (Or.inl hm)
            · exact List.mem_append.2 (Or.inr (by simpa [keysOf] using hk'))
        · rw [keysOf_append, List.nodup_append, hkeysrm]
          refine ⟨h.keys_nodup.erase k0, by simp [keysOf], ?_⟩
          intro a ha hb
          have : a = k := by simpa [keysOf] using hb
          exact hknk (this ▸ List.mem_of_mem_erase ha)
        · rw [List.length_append]
          have := length_removeA_of_contains c.storage k0 hk0
          have hsz := h.size_le
          simp only [List.length_singleton]
          omega
    · rw [put_of_fresh_small c k v hc (Nat.lt_of_not_ge h2)]
      refine ⟨?_, ?_, ?_, ?_⟩
      · rw [List.nodup_append]
        refine ⟨h.order_nodup, List.nodup_singleton k, fun a ha hb => ?_⟩
        rw [List.mem_singleton.1 hb] at ha
        exact hknm ha
      · intro k'
        rw [containsA_iff, keysOf_append, keysOf_cons, keysOf_nil]
        rw [List.mem_append, List.mem_append, ← containsA_iff, ← h.mem_iff]
      · rw [keysOf_append, List.nodup_append]
        refine ⟨h.keys_nodup, by simp [keysOf], ?_⟩
        intro a ha hb
        have : a = k := by simpa [keysOf] using hb
        exact hknk (this ▸ ha)
      · rw [List.length_append]
        have h2' := Nat.lt_of_not_ge h2
        simp only [List.length_singleton]
        omega

theorem reachable_inv {cap : Nat} {c : Cache K V} (h : Reachable cap c) : Inv c := by
  induction h with
  | new => exact inv_new cap
  | get c k _ ih => exact inv_get c k ih
  | put c k v _ ih => exact inv_put c k v ih

theorem reachable_capacity {cap : Nat} {c : Cache K V} (h : Reachable cap c) :
    c.capacity = cap := by
  induction h with
  | new => rfl
  | get c k _ ih => rw [get_capacity, ih]
  | put c k v _ ih => rw [put_capacity, ih]

theorem reachable_putList {cap : Nat} (kvs : List (K × V)) :
    ∀ {c : Cache K V}, Reachable cap c → Reachable cap (c.putList kvs) := by
  induction kvs with
  | nil => exact fun h => h
  | cons kv rest ih => exact fun h => ih (Reachable.put _ kv.1 kv.2 h)

end InvLemmas

/-! ## Closed forms for sequences of fresh `put`s -/

section PutListLemmas

variable {K V : Type} [DecidableEq K]

theorem putList_nil (c : Cache K V) : c.putList [] = c := rfl

theorem putList_cons (c : Cache K V) (kv : K × V) (kvs : List (K × V)) :
    c.putList (kv :: kvs) = (c.put kv.1 kv.2).putList kvs := rfl

theorem putList_append (c : Cache K V) (l1 l2 : List (K × V)) :
    c.putList (l1 ++ l2) = (c.putList l1).putList l2 := by
  simp [Cache.putList, List.foldl_append]

theorem putList_fill (cap : Nat) :
    ∀ (kvs l : List (K × V)), (keysOf (l ++ kvs)).Nodup → l.length + kvs.length ≤ cap →
      Cache.putList ⟨cap, l, keysOf l⟩ kvs = ⟨cap, l ++ kvs, keysOf (l ++ kvs)⟩ := by
  intro kvs
  induction kvs with
  | nil =>
    intro l _ _
    simp [Cache.putList]
  | cons kv rest ih =>
    intro l hnd hlen
    obtain ⟨k, v⟩ := kv
    rw [putList_cons]
    have hfresh : containsA l k = false := by
      rw [containsA_false_iff]
      intro hm
      rw [keysOf_append] at hnd
      exact (List.nodup_append.1 hnd).2.2 hm (by simp [keysOf])
    have hsmall : (⟨cap, l, keysOf l⟩ : Cache K V).storage.length < cap := by
      show l.length < cap
      simp only [List.length_cons] at hlen
      omega
    rw [put_of_fresh_small _ _ _ hfresh hsmall]
    have hkeys : keysOf l ++ [k] = keysOf (l ++ [(k, v)]) := by simp [keysOf]
    rw [show (⟨cap, l ++ [(k, v)], keysOf l ++ [k]⟩ : Cache K V)
        = ⟨cap, l ++ [(k, v)], keysOf (l ++ [(k, v)])⟩ from by rw [hkeys]]
    rw [ih (l ++ [(k, v)]) (by simpa using hnd) (by simp only [List.length_append,
      List.length_singleton, List.length_cons, List.length_nil] at hlen ⊢; omega)]
    simp

theorem putList_fresh_of_le (cap : Nat) (kvs : List (K × V))
    (hnd : (keysOf kvs).Nodup) (hlen : kvs.length ≤ max cap 1) :
    Cache.putList (Cache.new cap) kvs = ⟨cap, kvs, keysOf kvs⟩ := by
  by_cases hc : 1 ≤ cap
  · have h0 : Cache.putList (⟨cap, [], keysOf ([] : List (K × V))⟩ : Cache K V) kvs
        = ⟨cap, [] ++ kvs, keysOf ([] ++ kvs)⟩ := by
      refine putList_fill cap kvs [] (by simpa using hnd) ?_
      rw [Nat.max_eq_left hc] at hlen
      simpa using hlen
    simpa [Cache.new, keysOf] using h0
  · have hcap : cap = 0 := by omega
    subst hcap
    match kvs, hlen with
    | [], _ => rfl
    | [(k, v)], _ =>
      rw [putList_cons, put_of_fresh_empty_order (Cache.new 0) k v (by rfl)
        (by simp [Cache.new]) rfl]
      simp [Cache.new, putList_nil, keysOf]
    | (k, v) :: kv2 :: rest, hlen => simp at hlen

theorem putList_window (cap : Nat) (hcap : 1 ≤ cap) :
    ∀ (kvs : List (K × V)), (keysOf kvs).Nodup →
      Cache.putList (Cache.new cap) kvs
        = ⟨cap, kvs.drop (kvs.length - cap), keysOf (kvs.drop (kvs.length - cap))⟩ := by
  intro kvs
  induction kvs using List.reverseRecOn with
  | nil => intro _; simp [Cache.putList, Cache.new, List.drop_nil, keysOf]
  | append_singleton l a ih =>
    intro hnd
    rw [keysOf_append] at hnd
    have hndl : (keysOf l).Nodup := (List.nodup_append.1 hnd).1
    have hfresh : a.1 ∉ keysOf l := by
      intro hm
      exact (List.nodup_append.1 hnd).2.2 hm (by simp [keysOf])
    rw [putList_append, ih hndl]
    have hkeysw : keysOf (l.drop (l.length - cap)) = (keysOf l).drop (l.length - cap) := by
      simp [keysOf, List.map_drop]
    have hwsub : ∀ x ∈ keysOf (l.drop (l.length - cap)), x ∈ keysOf l := by
      rw [hkeysw]
      exact fun x hx => List.drop_subset _ _ hx
    have hfw : containsA (l.drop (l.length - cap)) a.1 = false := by
      rw [containsA_false_iff]
      exact fun hm => hfresh (hwsub _ hm)
    by_cases hlen : l.length < cap
    · have hz : l.length - cap = 0 := Nat.sub_eq_zero_of_le (le_of_lt hlen)
      rw [hz]
      simp only [List.drop_zero]
      rw [putList_cons, putList_nil,
        put_of_fresh_small ⟨cap, l, keysOf l⟩ a.1 a.2 (by simpa [hz] using hfw) hlen]
      have hz2 : (l ++ [a]).length - cap = 0 := by
        simp only [List.length_append, List.length_singleton]
        omega
      rw [hz2]
      simp only [List.drop_zero]
      have : keysOf l ++ [a.1] = keysOf (l ++ [a]) := by simp [keysOf]
      rw [this]
    · have hlen' : cap ≤ l.length := Nat.le_of_not_lt hlen
      have hwlen : (l.drop (l.length - cap)).length = cap := by
        rw [List.length_drop]
        omega
      have hwne : l.drop (l.length - cap) ≠ [] := by
        intro hh
        rw [hh] at hwlen
        simp at hwlen
        omega
      obtain ⟨w0, wrest, hw⟩ := List.exists_cons_of_ne_nil hwne
      rw [putList_cons, putList_nil,
        put_of_fresh_evict ⟨cap, l.drop (l.length - cap), keysOf (l.drop (l.length - cap))⟩
          a.1 a.2 w0.1 (keysOf wrest) hfw
          (by show (l.drop (l.length - cap)).length ≥ cap; omega)
          (by show keysOf (l.drop (l.length - cap)) = _; rw [hw, keysOf_cons])]
      have hrm : removeA (l.drop (l.length - cap)) w0.1 = wrest := by
        rw [hw, removeA_cons_head]
      have hwrest : wrest = l.drop (l.length - cap + 1) := by
        have := congrArg List.tail hw
        rw [List.tail_drop] at this
        simpa using this.symm
      have hidx : (l ++ [a]).length - cap = (l.length - cap) + 1 := by
        simp only [List.length_append, List.length_singleton]
        omega
      rw [hrm, hidx, List.drop_append_of_le_length (by omega), ← hwrest]
      have : keysOf wrest ++ [a.1] = keysOf (wrest ++ [a]) := by simp [keysOf]
      rw [this]

end PutListLemmas

/-! ## Decimal rendering and parsing -/

theorem digit_toNat (d : Nat) (h : d < 10) : (Char.ofNat (48 + d)).toNat = 48 + d := by
  interval_cases d <;> decide

theorem digitVal_digit (d : Nat) (h : d < 10) :
    digitVal (Char.ofNat (48 + d)) = some d := by
  interval_cases d <;> decide

theorem natDigits_ne_nil (n : Nat) : natDigits n ≠ [] := by
  rw [natDigits]
  split <;> simp

theorem natDigits_chars (n : Nat) : ∀ c ∈ natDigits n, 48 ≤ c.toNat ∧ c.toNat ≤ 57 := by
  induction n using Nat.strong_induction_on with
  | _ n ih =>
    rw [natDigits]
    split
    · intro c hc
      rw [List.mem_singleton.1 hc, digit_toNat n (by assumption)]
      omega
    · intro c hc
      rcases List.mem_append.1 hc with h | h
      · exact ih (n / 10) (Nat.div_lt_self (by omega) (by omega)) c h
      · have hmod : n % 10 < 10 := Nat.mod_lt _ (by omega)
        rw [List.mem_singleton.1 h, digit_toNat _ hmod]
        omega

theorem natDigits_not_special (n : Nat) :
    ∀ c ∈ natDigits n, c ≠ ';' ∧ c ≠ '\n' ∧ c ≠ '\r' := by
  intro c hc
  have h := natDigits_chars n c hc
  refine ⟨?_, ?_, ?_⟩ <;> intro he <;> rw [he] at h <;> revert h <;> decide

theorem parseNatDigits_append (xs ys : List Char) (acc : Nat) :
    parseNatDigits (xs ++ ys) acc =
      match parseNatDigits xs acc with
      | some a => parseNatDigits ys a
      | none => none := by
  induction xs generalizing acc with
  | nil => rfl
  | cons c rest ih =>
    simp only [List.cons_append, parseNatDigits]
    cases digitVal c with
    | some d => exact ih _
    | none => rfl

theorem parseNatDigits_natDigits (n : Nat) :
    ∀ acc, parseNatDigits (natDigits n) acc
      = some (acc * 10 ^ (natDigits n).length + n) := by
  induction n using Nat.strong_induction_on with
  | _ n ih =>
    intro acc
    rw [natDigits]
    split
    · simp only [parseNatDigits, digitVal_digit n (by assumption), List.length_singleton,
        pow_one]
    · rw [parseNatDigits_append,
        ih (n / 10) (Nat.div_lt_self (by omega) (by omega)) acc]
      have hmod : n % 10 < 10 := Nat.mod_lt _ (by omega)
      simp only [parseNatDigits, digitVal_digit _ hmod, List.length_append,
        List.length_singleton, pow_succ]
      congr 1
      have hdm : n / 10 * 10 + n % 10 = n := by omega
      calc (acc * 10 ^ (natDigits (n / 10)).length + n / 10) * 10 + n % 10
          = acc * (10 ^ (natDigits (n / 10)).length * 10) + (n / 10 * 10 + n % 10) := by
            ring
        _ = acc * (10 ^ (natDigits (n / 10)).length * 10) + n := by rw [hdm]

theorem parseNatStr_natDigits (n : Nat) : parseNatStr (natDigits n) = some n := by
  obtain ⟨c, rest, hcr⟩ := List.exists_cons_of_ne_nil (natDigits_ne_nil n)
  have hc : 48 ≤ c.toNat ∧ c.toNat ≤ 57 :=
    natDigits_chars n c (hcr ▸ List.mem_cons_self c rest)
  have hplus : ¬ (c = '+') := by
    intro h
    rw [h] at hc
    revert hc
    decide
  have hr : parseNatStr (natDigits n) = parseNatDigits (natDigits n) 0 := by
    rw [hcr]
    simp [parseNatStr, hplus]
  rw [hr, parseNatDigits_natDigits n 0]
  simp

/-! ## Line structure of file contents -/

theorem splitOnNl_ne_nil (cs : List Char) : splitOnNl cs ≠ [] := by
  induction cs with
  | nil => simp [splitOnNl]
  | cons c rest ih =>
    simp only [splitOnNl]
    by_cases h : c = '\n'
    · simp [h]
    · simp only [if_neg h]
      cases hs : splitOnNl rest with
      | nil => simp
      | cons l ls => simp

theorem splitOnNl_append (l rest : List Char) (h : '\n' ∉ l) :
    splitOnNl (l ++ '\n' :: rest) = l :: splitOnNl rest := by
  induction l with
  | nil => simp [splitOnNl]
  | cons c cl ih =>
    have hc : ¬ (c = '\n') := fun he => h (he ▸ List.mem_cons_self c cl)
    have h' : '\n' ∉ cl := fun hm => h (List.mem_cons_of_mem c hm)
    simp only [List.cons_append, splitOnNl, if_neg hc, List.append_eq, ih h']

theorem splitOnNl_flat (lls : List (List Char)) (h : ∀ l ∈ lls, '\n' ∉ l) :
    splitOnNl (lls.flatMap (fun l => l ++ ['\n'])) = lls ++ [[]] := by
  induction lls with
  | nil => simp [splitOnNl]
  | cons l ls ih =>
    rw [List.flatMap_cons]
    have hshape : (l ++ ['\n']) ++ ls.flatMap (fun l => l ++ ['\n'])
        = l ++ '\n' :: ls.flatMap (fun l => l ++ ['\n']) := by simp
    rw [hshape, splitOnNl_append l _ (h l (List.mem_cons_self l ls)),
      ih (fun l' hl' => h l' (List.mem_cons_of_mem l hl'))]
    simp

theorem rstripCR_of_not_mem (l : List Char) (h : '\r' ∉ l) : rstripCR l = l := by
  unfold rstripCR
  split
  · rename_i hlast
    exfalso
    obtain ⟨hne, heq⟩ := List.mem_getLast?_eq_getLast (l := l) (x := '\r') hlast
    exact h (heq ▸ List.getLast_mem hne)
  · rfl

theorem linesOf_structure (l0 : List Char) (lls : List (List Char))
    (h0 : '\n' ∉ l0) (h0r : '\r' ∉ l0)
    (h : ∀ l ∈ lls, '\n' ∉ l ∧ '\r' ∉ l) :
    linesOf (l0 ++ '\n' :: lls.flatMap (fun l => l ++ ['\n'])) = l0 :: lls := by
  have hsplit : splitOnNl (l0 ++ '\n' :: lls.flatMap (fun l => l ++ ['\n']))
      = (l0 :: lls) ++ [[]] := by
    rw [splitOnNl_append l0 _ h0, splitOnNl_flat lls (fun l hl => (h l hl).1)]
    rfl
  simp only [linesOf, hsplit, List.getLast?_concat, List.dropLast_concat]
  have hmap : List.map rstripCR (l0 :: lls) = List.map id (l0 :: lls) := by
    refine List.map_congr_left ?_
    intro l hl
    rcases List.mem_cons.1 hl with he | hm
    · exact he ▸ rstripCR_of_not_mem l0 h0r
    · exact rstripCR_of_not_mem l (h l hm).2
  rw [hmap, List.map_id]

theorem splitOnceSemi_append (a b : List Char) (h : ';' ∉ a) :
    splitOnceSemi (a ++ ';' :: b) = some (a, b) := by
  induction a with
  | nil => simp [splitOnceSemi]
  | cons c ca ih =>
    have hc : ¬ (c = ';') := fun he => h (he ▸ List.mem_cons_self c ca)
    simp [splitOnceSemi, hc, ih (fun hm => h (List.mem_cons_of_mem c hm))]

/-! ## Save and load, restated -/

theorem foldl_append_flat {α : Type} (f : α → List Char) (data : List α) :
    ∀ init : List Char,
      data.foldl (fun content kv => content ++ f kv) init = init ++ data.flatMap f := by
  induction data with
  | nil => intro init; simp
  | cons x xs ih =>
    intro init
    simp only [List.foldl_cons]
    rw [ih]
    simp

theorem saveContent_flat {K V : Type} (renderK : K → List Char) (renderV : V → List Char)
    (cap : Nat) (data : List (K × V)) :
    saveContent renderK renderV cap data
      = natDigits cap
        ++ '\n' :: data.flatMap (fun kv => renderK kv.1 ++ ';' :: (renderV kv.2 ++ ['\n'])) := by
  unfold saveContent
  rw [foldl_append_flat]
  simp

theorem foldl_loadStep {K V : Type} (parseK : List Char → Option K)
    (parseV : List Char → Option V) (ls : List (List Char)) :
    ∀ acc : List (K × V),
      ls.foldl (loadStep parseK parseV) acc
        = acc ++ ls.filterMap (parseEntry parseK parseV) := by
  induction ls with
  | nil => intro acc; simp
  | cons x xs ih =>
    intro acc
    simp only [List.foldl_cons]
    cases hg : parseEntry parseK parseV x with
    | some b =>
      rw [show loadStep parseK parseV acc x = acc ++ [b] from by unfold loadStep; rw [hg]]
      rw [ih]
      simp [List.filterMap_cons, hg]
    | none =>
      rw [show loadStep parseK parseV acc x = acc from by unfold loadStep; rw [hg]]
      rw [ih]
      simp [List.filterMap_cons, hg]

theorem loadContent_fst {K V : Type} (parseK : List Char → Option K)
    (parseV : List Char → Option V) (cs : List Char) :
    (loadContent parseK parseV cs).1 = ((linesOf cs).head?.bind parseNatStr).getD 0 := rfl

theorem loadContent_snd {K V : Type} (parseK : List Char → Option K)
    (parseV : List Char → Option V) (cs : List Char) :
    (loadContent parseK parseV cs).2
      = ((linesOf cs).drop 1).filterMap (parseEntry parseK parseV) := by
  have h := foldl_loadStep parseK parseV ((linesOf cs).drop 1) []
  rw [List.nil_append] at h
  exact h

theorem parseEntry_render {K V : Type} (parseK : List Char → Option K)
    (parseV : List Char → Option V) (renderK : K → List Char) (renderV : V → List Char)
    (k : K) (v : V)
    (hK : parseK (renderK k) = some k) (hV : parseV (renderV v) = some v)
    (hsemi : ';' ∉ renderK k) :
    parseEntry parseK parseV (renderK k ++ ';' :: renderV v) = some (k, v) := by
  unfold parseEntry
  rw [splitOnceSemi_append _ _ hsemi]
  simp [hK, hV]

theorem filterMap_map_eq_self {α β : Type} (f : α → β) (g : β → Option α) (l : List α)
    (h : ∀ a ∈ l, g (f a) = some a) : (l.map f).filterMap g = l := by
  induction l with
  | nil => rfl
  | cons x xs ih =>
    simp only [List.map_cons, List.filterMap_cons, h x (List.mem_cons_self x xs)]
    rw [ih (fun a ha => h a (List.mem_cons_of_mem x ha))]

/-! ## Snapshot lemmas -/

section SnapshotLemmas

variable {K V : Type} [DecidableEq K]

theorem snapshot_keys (c : Cache K V) (h : Inv c) : keysOf c.snapshot = c.order := by
  unfold Cache.snapshot
  have hgen : ∀ os : List K, (∀ k ∈ os, containsA c.storage k = true) →
      keysOf (os.filterMap (fun k => (lookupA c.storage k).map (fun v => (k, v)))) = os := by
    intro os hos
    induction os with
    | nil => rfl
    | cons k os ih =>
      have hk := hos k (List.mem_cons_self k os)
      have hsome : (lookupA c.storage k).isSome = true := by rw [lookupA_isSome, hk]
      obtain ⟨v, hv⟩ := Option.isSome_iff_exists.1 hsome
      simp only [List.filterMap_cons, hv, Option.map_some']
      rw [keysOf_cons, ih (fun a ha => hos a (List.mem_cons_of_mem k ha))]
  exact hgen c.order (fun k hk => (h.mem_iff k).1 hk)

theorem mem_snapshot (c : Cache K V) (k : K) (v : V)
    (hmo : k ∈ c.order) (hv : lookupA c.storage k = some v) : (k, v) ∈ c.snapshot := by
  unfold Cache.snapshot
  exact List.mem_filterMap.2 ⟨k, hmo, by rw [hv]; rfl⟩

theorem lookupA_snapshot (c : Cache K V) (h : Inv c) (k : K)
    (hc : containsA c.storage k = true) :
    lookupA c.snapshot k = lookupA c.storage k := by
  have hmo : k ∈ c.order := (h.mem_iff k).2 hc
  have hsome : (lookupA c.storage k).isSome = true := by rw [lookupA_isSome, hc]
  obtain ⟨v, hv⟩ := Option.isSome_iff_exists.1 hsome
  have hnd : (keysOf c.snapshot).Nodup := by
    rw [snapshot_keys c h]
    exact h.order_nodup
  rw [lookupA_eq_some_of_mem _ _ _ hnd (mem_snapshot c k v hmo hv), hv]

theorem snapshot_length (c : Cache K V) (h : Inv c) :
    c.snapshot.length = c.storage.length := by
  have h1 : c.snapshot.length = c.order.length := by
    have := congrArg List.length (snapshot_keys c h)
    simpa [keysOf] using this
  have hperm : c.order.Perm (keysOf c.storage) :=
    (List.perm_ext_iff_of_nodup h.order_nodup h.keys_nodup).2
      (fun a => by rw [h.mem_iff, containsA_iff])
  rw [h1, hperm.length_eq]
  simp [keysOf]

end SnapshotLemmas

/-! ## Further helper lemmas -/

section MoreHelpers

variable {K V : Type} [DecidableEq K]

theorem putList_capacity (kvs : List (K × V)) :
    ∀ c : Cache K V, (c.putList kvs).capacity = c.capacity := by
  induction kvs with
  | nil => intro c; rfl
  | cons kv rest ih =>
    intro c
    rw [putList_cons, ih, put_capacity]

theorem flatMap_line_shape {α : Type} (f g : α → List Char) (l : List α) :
    l.flatMap (fun a => f a ++ ';' :: (g a ++ ['\n']))
      = (l.map (fun a => f a ++ ';' :: g a)).flatMap (fun s => s ++ ['\n']) := by
  induction l with
  | nil => rfl
  | cons x xs ih =>
    simp only [List.flatMap_cons, List.map_cons, ih]
    simp

/-- On any state reachable at capacity 0, a `put` leaves exactly the entry
just inserted: the previous resident (if any) is evicted, the new one is not. -/
theorem put_capacity_zero (c : Cache K V) (hreach : Reachable 0 c) (k : K) (v : V) :
    c.put k v = ⟨0, [(k, v)], [k]⟩ := by
  have hinv := reachable_inv hreach
  have hcap := reachable_capacity hreach
  have hsize : c.storage.length ≤ 1 := by
    have := hinv.size_le
    rw [hcap] at this
    simpa using this
  cases hs : c.storage with
  | nil =>
    have hord : c.order = [] := by
      cases ho : c.order with
      | nil => rfl
      | cons a rest =>
        exfalso
        have hmem := (hinv.mem_iff a).1 (by rw [ho]; exact List.mem_cons_self a rest)
        rw [hs] at hmem
        simp [containsA] at hmem
    have hcon : containsA c.storage k = false := by rw [hs]; rfl
    rw [put_of_fresh_empty_order c k v hcon (by rw [hs, hcap]; simp) hord, hs, hcap]
    rfl
  | cons p ps =>
    have hps : ps = [] := by
      cases ps with
      | nil => rfl
      | cons q qs => rw [hs] at hsize; simp at hsize
    subst hps
    have hpmem : p.1 ∈ c.order := by
      rw [hinv.mem_iff, hs]
      simp [containsA]
    have hmemiff : ∀ x, x ∈ c.order ↔ x = p.1 := by
      intro x
      rw [hinv.mem_iff, hs, containsA_iff, keysOf_cons, keysOf_nil]
      simp [eq_comm]
    have hord : c.order = [p.1] := by
      cases ho : c.order with
      | nil => rw [ho] at hpmem; simp at hpmem
      | cons a rest =>
        have ha : a = p.1 := (hmemiff a).1 (by rw [ho]; exact List.mem_cons_self a rest)
        cases hrest : rest with
        | nil => rw [ha]
        | cons b bs =>
          exfalso
          have hb : b = p.1 := (hmemiff b).1
            (by rw [ho, hrest]; exact List.mem_cons_of_mem _ (List.mem_cons_self b bs))
          have hnd := hinv.order_nodup
          rw [ho, hrest, List.nodup_cons] at hnd
          exact hnd.1 (by rw [ha, ← hb]; exact List.mem_cons_self b bs)
    by_cases hk : k = p.1
    · have hcon : containsA c.storage k = true := by
        rw [hs]
        simp [containsA, hk]
      rw [put_of_contains c k v hcon]
      rw [update_order_of_mem _ k (by show k ∈ c.order; rw [hord]; simp [hk])]
      show (⟨c.capacity, insertA c.storage k v, c.order.erase k ++ [k]⟩ : Cache K V) = _
      rw [hs, hcap, hord]
      simp [insertA, hk]
    · have hpk : ¬ (p.1 = k) := fun hh => hk hh.symm
      have hcon : containsA c.storage k = false := by
        rw [hs]
        simp [containsA, hpk]
      rw [put_of_fresh_evict c k v p.1 [] hcon (by rw [hs, hcap]; simp) (by rw [hord])]
      rw [hs, hcap]
      simp [removeA]

end MoreHelpers

/-! ## The claims -/

/-- C1, counterexample: on a capacity-0 cache a single `put` leaves one
resident entry, so the claimed bound "resident entries ≤ capacity after
every put" fails at capacity 0. -/
theorem c1_counterexample :
    ¬ ((Cache.putList (Cache.new 0) [((1 : Nat), (1 : Nat))]).storage.length ≤ 0) := by
  decide

/-- C1 (amended): for every capacity ≥ 1 and every sequence of `put` calls
starting from `new capacity`, after each `put` the number of resident
entries is at most `capacity`. -/
theorem c1_capacity_invariant {K V : Type} [DecidableEq K] (cap : Nat) (hcap : 1 ≤ cap)
    (kvs : List (K × V)) :
    (Cache.putList (Cache.new cap) kvs).storage.length ≤ cap := by
  have hreach := reachable_putList kvs (Reachable.new : Reachable cap (Cache.new cap))
  have hinv := reachable_inv hreach
  have hc := reachable_capacity hreach
  have hsz := hinv.size_le
  rw [hc] at hsz
  omega

/-- C1 witness: two puts into a capacity-1 cache leave at most one entry. -/
theorem c1_capacity_invariant_witness :
    (Cache.putList (Cache.new 1) [((1 : Nat), (1 : Nat)), (2, 2)]).storage.length ≤ 1 :=
  c1_capacity_invariant 1 (by decide) [(1, 1), (2, 2)]

/-- C2, counterexample: after `put` on a fresh capacity-0 cache, the cache
holds one entry and `get` on the inserted key returns its value, so the
claimed "contains no entries / every get returns nothing" fails. -/
theorem c2_counterexample :
    ((Cache.new 0 : Cache Nat Nat).put 1 5).storage.length = 1 ∧
    (((Cache.new 0 : Cache Nat Nat).put 1 5).get 1).1 = some 5 := by
  decide

/-- C2 (amended): on a capacity-0 cache, each `put` evicts the previously
resident entry (if any) rather than the one being inserted: afterwards the
cache holds exactly the entry just put, and `get` on any other key returns
nothing. -/
theorem c2_capacity_zero {K V : Type} [DecidableEq K] (c : Cache K V)
    (hreach : Reachable 0 c) (k : K) (v : V) :
    (c.put k v).storage = [(k, v)] ∧ (c.put k v).order = [k] ∧
    ∀ k', k' ≠ k → ((c.put k v).get k').1 = none := by
  have h := put_capacity_zero c hreach k v
  refine ⟨by rw [h], by rw [h], ?_⟩
  intro k' hk'
  rw [h]
  have hkk : ¬ (k = k') := fun hh => hk' hh.symm
  have hcon : containsA ((⟨0, [(k, v)], [k]⟩ : Cache K V)).storage k' = false := by
    simp [containsA, hkk]
  rw [get_of_not_contains _ _ hcon]

/-- C2 witness: putting (1, 2) on a fresh capacity-0 cache leaves exactly
that entry, and `get 0` afterwards returns nothing. -/
theorem c2_capacity_zero_witness :
    ((Cache.new 0 : Cache Nat Nat).put 1 2).storage = [(1, 2)] ∧
    (((Cache.new 0 : Cache Nat Nat).put 1 2).get 0).1 = none := by
  have h := c2_capacity_zero (Cache.new 0 : Cache Nat Nat) Reachable.new 1 2
  exact ⟨h.1, h.2.2 0 (by decide)⟩

/-- C3: inserting `capacity + 1` pairwise-distinct keys into a fresh cache
of capacity ≥ 1, with no intervening `get`, evicts exactly the
first-inserted key: the resident keys are exactly the last `capacity`
inserted ones and `get` on the first key returns nothing. -/
theorem c3_eviction_first {K V : Type} [DecidableEq K] (cap : Nat) (hcap : 1 ≤ cap)
    (kv0 : K × V) (rest : List (K × V))
    (hlen : (kv0 :: rest).length = cap + 1)
    (hnd : (keysOf (kv0 :: rest)).Nodup) :
    keysOf (Cache.putList (Cache.new cap) (kv0 :: rest)).storage = keysOf rest ∧
    ((Cache.putList (Cache.new cap) (kv0 :: rest)).get kv0.1).1 = none := by
  have hwin := putList_window cap hcap (kv0 :: rest) hnd
  have hdrop : (kv0 :: rest).length - cap = 1 := by rw [hlen]; omega
  rw [hwin, hdrop]
  simp only [List.drop_succ_cons, List.drop_zero]
  have hnotin : containsA rest kv0.1 = false := by
    rw [containsA_false_iff]
    rw [keysOf_cons, List.nodup_cons] at hnd
    exact hnd.1
  constructor
  · trivial
  · rw [get_of_not_contains _ _ hnotin]

/-- C3 witness: keys 1, 2, 3 into a fresh capacity-2 cache leave exactly
keys 2 and 3 resident; `get 1` returns nothing. -/
theorem c3_eviction_first_witness :
    keysOf (Cache.putList (Cache.new 2)
        [((1 : Nat), (10 : Nat)), (2, 20), (3, 30)]).storage
      = keysOf [((2 : Nat), (20 : Nat)), (3, 30)] ∧
    ((Cache.putList (Cache.new 2) [((1 : Nat), (10 : Nat)), (2, 20), (3, 30)]).get 1).1
      = none :=
  c3_eviction_first 2 (by decide) (1, 10) [(2, 20), (3, 30)] (by decide) (by decide)

/-- C4: `get` is a mutating read: on any reachable state containing the key,
`get` returns the stored value and moves the key to the most-recently-used
end of the order, leaving the store untouched; concretely, after inserting
1, 2, 3 into a capacity-3 cache, `get 2` followed by `put 4` evicts key 1,
not key 2. -/
theorem c4_get_refreshes :
    (∀ (K V : Type) [DecidableEq K] (cap : Nat) (c : Cache K V) (k : K),
      Reachable cap c → containsA c.storage k = true →
        (c.get k).1 = lookupA c.storage k ∧ ((c.get k).1).isSome = true ∧
        (c.get k).2.storage = c.storage ∧
        (c.get k).2.order = c.order.erase k ++ [k]) ∧
    ((((Cache.putList (Cache.new 3)
          [((1 : Nat), (1 : Nat)), (2, 2), (3, 3)]).get 2).2.put 4 4).get 1).1 = none ∧
    ((((Cache.putList (Cache.new 3)
          [((1 : Nat), (1 : Nat)), (2, 2), (3, 3)]).get 2).2.put 4 4).get 2).1 = some 2 := by
  refine ⟨?_, by decide, by decide⟩
  intro K V _ cap c k hreach hc
  have hinv := reachable_inv hreach
  have hmo : k ∈ c.order := (hinv.mem_iff k).2 hc
  rw [get_of_contains c k hc]
  refine ⟨rfl, ?_, ?_, ?_⟩
  · show (lookupA c.storage k).isSome = true
    rw [lookupA_isSome]
    exact hc
  · rw [update_order_storage]
  · rw [update_order_of_mem c k hmo]

/-- C4 witness: on the reachable cache holding key 5, `get 5` returns the
stored value and moves 5 to the most-recently-used end. -/
theorem c4_get_refreshes_witness :
    ((Cache.putList (Cache.new 2) [((5 : Nat), (7 : Nat))]).get 5).1
      = lookupA (Cache.putList (Cache.new 2) [((5 : Nat), (7 : Nat))]).storage 5 ∧
    ((Cache.putList (Cache.new 2) [((5 : Nat), (7 : Nat))]).get 5).2.order
      = (Cache.putList (Cache.new 2) [((5 : Nat), (7 : Nat))]).order.erase 5 ++ [5] := by
  have h := c4_get_refreshes.1 Nat Nat 2
    (Cache.putList (Cache.new 2) [((5 : Nat), (7 : Nat))]) 5
    (reachable_putList _ Reachable.new) (by decide)
  exact ⟨h.1, h.2.2.2⟩

/-- C5: `put` of a key already present replaces its value, refreshes its
recency, and leaves the resident count and all other keys' values
unchanged — no entry is evicted. -/
theorem c5_put_existing {K V : Type} [DecidableEq K] (cap : Nat) (c : Cache K V)
    (k : K) (v : V) (hreach : Reachable cap c) (hc : containsA c.storage k = true) :
    (c.put k v).storage.length = c.storage.length ∧
    lookupA (c.put k v).storage k = some v ∧
    (∀ k', k' ≠ k → lookupA (c.put k v).storage k' = lookupA c.storage k') ∧
    (c.put k v).order = c.order.erase k ++ [k] := by
  have hinv := reachable_inv hreach
  have hmo : k ∈ c.order := (hinv.mem_iff k).2 hc
  rw [put_of_contains c k v hc]
  rw [update_order_of_mem ⟨c.capacity, insertA c.storage k v, c.order⟩ k hmo]
  refine ⟨?_, ?_, ?_, rfl⟩
  · show (insertA c.storage k v).length = c.storage.length
    exact length_insertA_of_contains c.storage k v hc
  · exact lookupA_insertA_self c.storage k v
  · intro k' hk'
    exact lookupA_insertA_ne c.storage k k' v hk'

/-- C5 witness: re-putting key 1 with value 99 into the cache that holds
(1, 10) keeps one entry, stores 99 under key 1, and leaves key 2 unread. -/
theorem c5_put_existing_witness :
    ((Cache.putList (Cache.new 2) [((1 : Nat), (10 : Nat))]).put 1 99).storage.length
      = (Cache.putList (Cache.new 2) [((1 : Nat), (10 : Nat))]).storage.length ∧
    lookupA ((Cache.putList (Cache.new 2) [((1 : Nat), (10 : Nat))]).put 1 99).storage 1
      = some 99 := by
  have h := c5_put_existing 2 (Cache.putList (Cache.new 2) [((1 : Nat), (10 : Nat))])
    1 99 (reachable_putList _ Reachable.new) (by decide)
  exact ⟨h.1, h.2.1⟩

/-- C6: in every state reachable from `new capacity` by `get` and `put`
calls, the recency order has no duplicate keys and its key-set is exactly
the key-set of the store. -/
theorem c6_order_matches_storage {K V : Type} [DecidableEq K] (cap : Nat)
    (c : Cache K V) (hreach : Reachable cap c) :
    c.order.Nodup ∧ ∀ k, k ∈ c.order ↔ containsA c.storage k = true :=
  ⟨(reachable_inv hreach).order_nodup, (reachable_inv hreach).mem_iff⟩

/-- C6 witness: the invariant, instantiated on the reachable cache obtained
by putting keys 1 and 2 into a fresh capacity-2 cache, checked at key 1. -/
theorem c6_order_matches_storage_witness :
    (Cache.putList (Cache.new 2) [((1 : Nat), (10 : Nat)), (2, 20)]).order.Nodup ∧
    ((1 : Nat) ∈ (Cache.putList (Cache.new 2) [((1 : Nat), (10 : Nat)), (2, 20)]).order ↔
      containsA (Cache.putList (Cache.new 2)
        [((1 : Nat), (10 : Nat)), (2, 20)]).storage 1 = true) := by
  have h := c6_order_matches_storage 2
    (Cache.putList (Cache.new 2) [((1 : Nat), (10 : Nat)), (2, 20)])
    (reachable_putList _ Reachable.new)
  exact ⟨h.1, h.2 1⟩

/-- C7: round trip — for key and value types whose renderings avoid the
separator and newline characters and parse back to themselves, `load` of a
`save`d cache returns the original capacity and the original entry
sequence, and replaying those entries through `put` into a fresh cache of
the same capacity reproduces the original cache's `get` results on every
resident key. -/
theorem c7_round_trip {K V : Type} [DecidableEq K]
    (renderK : K → List Char) (parseK : List Char → Option K)
    (renderV : V → List Char) (parseV : List Char → Option V)
    (hK : ∀ k, parseK (renderK k) = some k)
    (hV : ∀ v, parseV (renderV v) = some v)
    (hKc : ∀ k ch, ch ∈ renderK k → ch ≠ ';' ∧ ch ≠ '\n' ∧ ch ≠ '\r')
    (hVc : ∀ v ch, ch ∈ renderV v → ch ≠ ';' ∧ ch ≠ '\n' ∧ ch ≠ '\r')
    (cap : Nat) (c : Cache K V) (hreach : Reachable cap c) :
    loadContent parseK parseV (save_to_file renderK renderV c) = (cap, c.snapshot) ∧
    ∀ k, containsA c.storage k = true →
      ((Cache.putList (Cache.new cap)
          (loadContent parseK parseV (save_to_file renderK renderV c)).2).get k).1
        = (c.get k).1 := by
  have hinv := reachable_inv hreach
  have hcap := reachable_capacity hreach
  have hlines : linesOf (save_to_file renderK renderV c)
      = natDigits c.capacity
        :: c.snapshot.map (fun kv => renderK kv.1 ++ ';' :: renderV kv.2) := by
    unfold save_to_file
    rw [saveContent_flat, flatMap_line_shape]
    apply linesOf_structure
    · intro hm
      exact (natDigits_not_special _ _ hm).2.1 rfl
    · intro hm
      exact (natDigits_not_special _ _ hm).2.2 rfl
    · intro l hl
      obtain ⟨kv, _, hkv⟩ := List.mem_map.1 hl
      subst hkv
      constructor
      · intro hm
        rcases List.mem_append.1 hm with h | h
        · exact (hKc kv.1 _ h).2.1 rfl
        · rcases List.mem_cons.1 h with he | h
          · exact absurd he (by decide)
          · exact (hVc kv.2 _ h).2.1 rfl
      · intro hm
        rcases List.mem_append.1 hm with h | h
        · exact (hKc kv.1 _ h).2.2 rfl
        · rcases List.mem_cons.1 h with he | h
          · exact absurd he (by decide)
          · exact (hVc kv.2 _ h).2.2 rfl
  have hdata : (loadContent parseK parseV (save_to_file renderK renderV c)).2
      = c.snapshot := by
    rw [loadContent_snd, hlines]
    simp only [List.drop_succ_cons, List.drop_zero]
    apply filterMap_map_eq_self
    intro kv _
    obtain ⟨k, v⟩ := kv
    exact parseEntry_render parseK parseV renderK renderV k v (hK k) (hV v)
      (fun hm => (hKc k ';' hm).1 rfl)
  have hfst : (loadContent parseK parseV (save_to_file renderK renderV c)).1 = cap := by
    rw [loadContent_fst, hlines]
    simp only [List.head?_cons]
    rw [show (some (natDigits c.capacity)).bind parseNatStr
        = parseNatStr (natDigits c.capacity) from rfl, parseNatStr_natDigits]
    simp [hcap]
  constructor
  · exact Prod.ext hfst hdata
  · intro k hck
    rw [hdata]
    have hnd : (keysOf c.snapshot).Nodup := by
      rw [snapshot_keys c hinv]
      exact hinv.order_nodup
    have hlen : c.snapshot.length ≤ max cap 1 := by
      rw [snapshot_length c hinv]
      have := hinv.size_le
      rw [hcap] at this
      exact this
    rw [putList_fresh_of_le cap c.snapshot hnd hlen]
    have hcs : containsA c.snapshot k = true := by
      rw [containsA_iff, snapshot_keys c hinv]
      exact (hinv.mem_iff k).2 hck
    rw [get_of_contains ⟨cap, c.snapshot, keysOf c.snapshot⟩ k hcs,
      get_of_contains c k hck]
    show lookupA c.snapshot k = lookupA c.storage k
    exact lookupA_snapshot c hinv k hck

/-- C7 witness: the round trip on the concrete capacity-2 cache holding
(1, 10), with decimal rendering and parsing for keys and values. -/
theorem c7_round_trip_witness :
    loadContent parseNatStr parseNatStr
        (save_to_file natDigits natDigits
          (Cache.putList (Cache.new 2) [((1 : Nat), (10 : Nat))]))
      = (2, (Cache.putList (Cache.new 2) [((1 : Nat), (10 : Nat))]).snapshot) ∧
    ((Cache.putList (Cache.new 2)
        (loadContent parseNatStr parseNatStr
          (save_to_file natDigits natDigits
            (Cache.putList (Cache.new 2) [((1 : Nat), (10 : Nat))]))).2).get 1).1
      = ((Cache.putList (Cache.new 2) [((1 : Nat), (10 : Nat))]).get 1).1 := by
  have h := c7_round_trip natDigits parseNatStr natDigits parseNatStr
    parseNatStr_natDigits parseNatStr_natDigits
    (fun k ch hm => natDigits_not_special k ch hm)
    (fun v ch hm => natDigits_not_special v ch hm)
    2 (Cache.putList (Cache.new 2) [((1 : Nat), (10 : Nat))])
    (reachable_putList _ Reachable.new)
  exact ⟨h.1, h.2 1 (by decide)⟩

/-- C8: loading never raises a parse error — an absent or unparsable first
line yields capacity 0, each malformed entry line is dropped while the
well-formed ones are kept in file order, and concretely a file with one
well-formed line and one line lacking a semicolon loads exactly the
well-formed entry. -/
theorem c8_load_lossy :
    (∀ (K V : Type) (parseK : List Char → Option K) (parseV : List Char → Option V)
      (cs : List Char), (linesOf cs).head?.bind parseNatStr = none →
        (loadContent parseK parseV cs).1 = 0) ∧
    (∀ (K V : Type) (parseK : List Char → Option K) (parseV : List Char → Option V)
      (cs : List Char),
        (loadContent parseK parseV cs).2
          = ((linesOf cs).drop 1).filterMap (parseEntry parseK parseV)) ∧
    loadContent parseNatStr parseNatStr ("2\n5;7\nbad\n".toList) = (2, [(5, 7)]) := by
  refine ⟨?_, ?_, ?_⟩
  · intro K V parseK parseV cs h
    rw [loadContent_fst, h]
    rfl
  · intro K V parseK parseV cs
    exact loadContent_snd parseK parseV cs
  · decide

/-- C8 witness: a file whose first line is not a number loads with
capacity 0. -/
theorem c8_load_lossy_witness :
    (loadContent parseNatStr parseNatStr ("xx\n5;7\n".toList)).1 = 0 :=
  c8_load_lossy.1 Nat Nat parseNatStr parseNatStr ("xx\n5;7\n".toList) (by decide)

/-- C9: `save` writes exactly the capacity's decimal rendering as the first
line, followed by one `key;value` line per entry, in the caller's order. -/
theorem c9_save_format {K V : Type} (renderK : K → List Char) (renderV : V → List Char)
    (cap : Nat) (data : List (K × V)) :
    saveContent renderK renderV cap data
      = natDigits cap
        ++ '\n' :: data.flatMap (fun kv => renderK kv.1 ++ ';' :: (renderV kv.2 ++ ['\n'])) :=
  saveContent_flat renderK renderV cap data

/-- C10: `load_from_file` ignores the capacity stored in the file and uses
the caller-supplied one; the loaded entries are replayed through `put`, so
with distinct keys only the last `capacity` entries survive (oldest
evicted first). -/
theorem c10_load_ignores_file_capacity {K V : Type} [DecidableEq K]
    (parseK : List Char → Option K) (parseV : List Char → Option V)
    (cs : List Char) (cap : Nat) :
    (load_from_file parseK parseV cs cap).capacity = cap ∧
    load_from_file parseK parseV cs cap
      = Cache.putList (Cache.new cap) (loadContent parseK parseV cs).2 ∧
    (1 ≤ cap → (keysOf (loadContent parseK parseV cs).2).Nodup →
      (load_from_file parseK parseV cs cap).storage
        = (loadContent parseK parseV cs).2.drop
            ((loadContent parseK parseV cs).2.length - cap)) := by
  refine ⟨?_, rfl, ?_⟩
  · exact putList_capacity (loadContent parseK parseV cs).2 (Cache.new cap)
  · intro hcap hnd
    show (Cache.putList (Cache.new cap) (loadContent parseK parseV cs).2).storage = _
    rw [putList_window cap hcap _ hnd]

/-- C10 witness: a file recording capacity 5 with two entries, loaded at
caller capacity 1, yields a capacity-1 cache holding only the last entry. -/
theorem c10_load_ignores_file_capacity_witness :
    (load_from_file parseNatStr parseNatStr ("5\n1;10\n2;20\n".toList) 1).capacity = 1 ∧
    (load_from_file parseNatStr parseNatStr
        ("5\n1;10\n2;20\n".toList) 1).storage = [((2 : Nat), (20 : Nat))] := by
  have h := c10_load_ignores_file_capacity parseNatStr parseNatStr
    ("5\n1;10\n2;20\n".toList) 1
  refine ⟨h.1, ?_⟩
  rw [h.2.2 (by decide) (by decide)]
  decide

end LruCache
